import Mathlib

/-!
Verification of the diagram-region detection and merge pipeline of
`extractImage.py` (the most developed PDF-extraction variant of the
repository).  Rectangles are 4-tuples `(x1, y1, x2, y2)` of Python integers,
modelled as `Int`.  The Python floats `0.30`, `0.90`, `0.12`, `0.35` are
modelled as exact rationals; every quantity compared by the code is a ratio
of integers, so the exact-rational model matches the float code on all
realistic inputs.

The file is organised as: all definitions (the shallow embedding of the
code), then all theorems about them.
-/

/-- A rectangle `(x1, y1, x2, y2)` in pixel coordinates, as used throughout
`extractImage.py`. -/
structure Box where
  x1 : Int
  y1 : Int
  x2 : Int
  y2 : Int
deriving DecidableEq

instance : Inhabited Box := ⟨⟨0, 0, 0, 0⟩⟩

/-- `(r[2]-r[0])*(r[3]-r[1])`: the (signed) area of a box. -/
def boxArea (a : Box) : Int := (a.x2 - a.x1) * (a.y2 - a.y1)

/-- `iw = max(0, inter_x2 - inter_x1)` from `iou`. -/
def interW (a b : Box) : Int := max 0 (min a.x2 b.x2 - max a.x1 b.x1)

/-- `ih = max(0, inter_y2 - inter_y1)` from `iou`. -/
def interH (a b : Box) : Int := max 0 (min a.y2 b.y2 - max a.y1 b.y1)

/-- `inter = iw * ih` from `iou`. -/
def interArea (a b : Box) : Int := interW a b * interH a b

/-- `MERGE_GAP = 40`. -/
def MERGE_GAP : Int := 40

/-- `IOU_TO_MERGE = 0.30`. -/
def IOU_TO_MERGE : Rat := 3 / 10

/-- The containment threshold constant `0.90` of `extractImage.py`
(source constant name: CONTAINED _RATIO, renamed here). -/
def CONTAINED_THRESH : Rat := 9 / 10

/-- `MIN_W = 80`. -/
def MIN_W : Int := 80

/-- `MIN_H = 80`. -/
def MIN_H : Int := 80

/-- `iou(a, b)` of `extractImage.py`: intersection-over-union of two boxes. -/
def iou (a b : Box) : Rat :=
  if interArea a b = 0 then 0
  else (interArea a b : Rat) /
    ((boxArea a : Rat) + (boxArea b : Rat) - (interArea a b : Rat))

/-- The coordinatewise containment test
`ix1 >= ox1 and iy1 >= oy1 and ix2 <= ox2 and iy2 <= oy2`. -/
def coordContained (inner outer : Box) : Prop :=
  outer.x1 ≤ inner.x1 ∧ outer.y1 ≤ inner.y1 ∧
  inner.x2 ≤ outer.x2 ∧ inner.y2 ≤ outer.y2

instance (inner outer : Box) : Decidable (coordContained inner outer) :=
  inferInstanceAs (Decidable (_ ∧ _ ∧ _ ∧ _))

/-- `contained_ratio(inner, outer)` of `extractImage.py`: if `inner` is
coordinatewise inside `outer`, it returns `inner`'s area divided by
`max(outer area, 1)`; otherwise `0.0`. -/
def containedFrac (inner outer : Box) : Rat :=
  if coordContained inner outer then
    (boxArea inner : Rat) / ((max (boxArea outer) 1 : Int) : Rat)
  else 0

/-- The merge-loop test `iou(rects[i], rects[j]) >= IOU_TO_MERGE`. -/
def iouGe (a b : Box) : Prop := IOU_TO_MERGE ≤ iou a b

/-- The containment-pass test `contained_ratio(r, s) >= 0.90`. -/
def fracGe (inner outer : Box) : Prop :=
  CONTAINED_THRESH ≤ containedFrac inner outer

/-- Positivity and bounds of the intersection area when it is nonzero
(proof-carrying definition, used to build the decidability instances and
restated as theorems below). -/
def interAreaFacts (a b : Box) (h : interArea a b ≠ 0) :
    0 < interArea a b ∧ interArea a b ≤ boxArea a ∧ interArea a b ≤ boxArea b := by
  have hw : 0 < interW a b := by
    have h0 : (0 : Int) ≤ interW a b := le_max_left _ _
    rcases lt_or_eq_of_le h0 with h' | h'
    · exact h'
    · exact absurd (by rw [interArea, ← h', zero_mul]) h
  have hh : 0 < interH a b := by
    have h0 : (0 : Int) ≤ interH a b := le_max_left _ _
    rcases lt_or_eq_of_le h0 with h' | h'
    · exact h'
    · exact absurd (by rw [interArea, ← h', mul_zero]) h
  have hwa : interW a b ≤ a.x2 - a.x1 := by
    have h1 : min a.x2 b.x2 ≤ a.x2 := min_le_left _ _
    have h2 : a.x1 ≤ max a.x1 b.x1 := le_max_left _ _
    simp only [interW] at hw ⊢
    omega
  have hha : interH a b ≤ a.y2 - a.y1 := by
    have h1 : min a.y2 b.y2 ≤ a.y2 := min_le_left _ _
    have h2 : a.y1 ≤ max a.y1 b.y1 := le_max_left _ _
    simp only [interH] at hh ⊢
    omega
  have hwb : interW a b ≤ b.x2 - b.x1 := by
    have h1 : min a.x2 b.x2 ≤ b.x2 := min_le_right _ _
    have h2 : b.x1 ≤ max a.x1 b.x1 := le_max_right _ _
    simp only [interW] at hw ⊢
    omega
  have hhb : interH a b ≤ b.y2 - b.y1 := by
    have h1 : min a.y2 b.y2 ≤ b.y2 := min_le_right _ _
    have h2 : b.y1 ≤ max a.y1 b.y1 := le_max_right _ _
    simp only [interH] at hh ⊢
    omega
  refine ⟨mul_pos hw hh, ?_, ?_⟩
  · calc interArea a b = interW a b * interH a b := rfl
      _ ≤ (a.x2 - a.x1) * (a.y2 - a.y1) :=
          mul_le_mul hwa hha (le_of_lt hh) (by omega)
      _ = boxArea a := rfl
  · calc interArea a b = interW a b * interH a b := rfl
      _ ≤ (b.x2 - b.x1) * (b.y2 - b.y1) :=
          mul_le_mul hwb hhb (le_of_lt hh) (by omega)
      _ = boxArea b := rfl

/-- Integer characterization of the `iou >= 0.30` test (proof-carrying
definition, restated as `iouGe_iff` below). -/
def iouGeIffAux (a b : Box) :
    iouGe a b ↔ interArea a b ≠ 0 ∧
      3 * (boxArea a + boxArea b - interArea a b) ≤ 10 * interArea a b := by
  unfold iouGe iou IOU_TO_MERGE
  by_cases h : interArea a b = 0
  · simp [h]
  · obtain ⟨hpos, hla, hlb⟩ := interAreaFacts a b h
    have hd : 0 < boxArea a + boxArea b - interArea a b := by omega
    have hdQ : (0 : Rat) < (boxArea a : Rat) + (boxArea b : Rat) - (interArea a b : Rat) := by
      exact_mod_cast hd
    rw [if_neg h]
    rw [div_le_div_iff₀ (by norm_num) hdQ]
    constructor
    · intro hle
      refine ⟨h, ?_⟩
      have h2 : ((3 * (boxArea a + boxArea b - interArea a b) : Int) : Rat) ≤
          ((10 * interArea a b : Int) : Rat) := by
        push_cast
        linarith
      exact_mod_cast h2
    · intro ⟨_, hle⟩
      have h2 : ((3 * (boxArea a + boxArea b - interArea a b) : Int) : Rat) ≤
          ((10 * interArea a b : Int) : Rat) := by exact_mod_cast hle
      push_cast at h2
      linarith

/-- Integer characterization of the `contained_ratio >= 0.90` test
(proof-carrying definition, restated as `fracGe_iff` below). -/
def fracGeIffAux (inner outer : Box) :
    fracGe inner outer ↔ coordContained inner outer ∧
      9 * max (boxArea outer) 1 ≤ 10 * boxArea inner := by
  unfold fracGe containedFrac CONTAINED_THRESH
  by_cases h : coordContained inner outer
  · have hm : (0 : Int) < max (boxArea outer) 1 := by
      have := le_max_right (boxArea outer) 1
      omega
    have hmQ : (0 : Rat) < ((max (boxArea outer) 1 : Int) : Rat) := by exact_mod_cast hm
    rw [if_pos h, div_le_div_iff₀ (by norm_num) hmQ]
    constructor
    · intro hle
      refine ⟨h, ?_⟩
      push_cast at hle
      have h2 : ((9 * max (boxArea outer) 1 : Int) : Rat) ≤
          ((10 * boxArea inner : Int) : Rat) := by
        push_cast
        linarith
      exact_mod_cast h2
    · intro ⟨_, hle⟩
      have h2 : ((9 * max (boxArea outer) 1 : Int) : Rat) ≤
          ((10 * boxArea inner : Int) : Rat) := by exact_mod_cast hle
      push_cast at h2 hmQ ⊢
      linarith
  · simp [if_neg h, h]

instance (a b : Box) : Decidable (iouGe a b) :=
  decidable_of_iff _ (iouGeIffAux a b).symm

instance (inner outer : Box) : Decidable (fracGe inner outer) :=
  decidable_of_iff _ (fracGeIffAux inner outer).symm

/-- Stable insertion of a box into a list sorted by decreasing area:
`insertArea x` walks past strictly larger areas and places `x` before the
first element whose area is not larger. -/
def insertArea (x : Box) : List Box → List Box
  | [] => [x]
  | y :: ys => if boxArea x < boxArea y then y :: insertArea x ys else x :: y :: ys

/-- `sorted(rects, key=lambda r: (r[2]-r[0])*(r[3]-r[1]), reverse=True)`
(line 50): stable sort by decreasing area.  Any stable sort with the same
key produces the same list as Python's `sorted`, so insertion sort is a
faithful model. -/
def sortArea : List Box → List Box
  | [] => []
  | x :: xs => insertArea x (sortArea xs)

/-- The inner-`for j` test of the containment pass (lines 54-58): the box
at index `i` is dropped when some other index `j` has
`contained_ratio(r, s) >= 0.90`. -/
def dropAt (l : List Box) (i : Nat) : Prop :=
  ∃ j ∈ List.range l.length, j ≠ i ∧ fracGe (l.getD i default) (l.getD j default)

instance (l : List Box) (i : Nat) : Decidable (dropAt l i) :=
  inferInstanceAs (Decidable (∃ j ∈ List.range l.length, _ ∧ _))

/-- The containment-elimination pass of `merge_boxes` (lines 50-61): keep
the boxes whose index is not dropped. -/
def containPass (l : List Box) : List Box :=
  ((List.range l.length).filter (fun i => decide (¬ dropAt l i))).map
    (fun i => l.getD i default)

/-- The expanded-overlap separation test of the merge loop (line 83):
`ex2 < bx1 or fx2 < ax1 or ex1 > bx2 or fx1 > ax2 or ey2 < by1 or
fy2 < ay1 or ey1 > by2 or fy1 > ay2` where `e` is `a` expanded by
`MERGE_GAP` and `f` is `b` expanded by `MERGE_GAP`. -/
def isSep (a b : Box) : Prop :=
  a.x2 + MERGE_GAP < b.x1 ∨ b.x2 + MERGE_GAP < a.x1 ∨
  a.x1 - MERGE_GAP > b.x2 ∨ b.x1 - MERGE_GAP > a.x2 ∨
  a.y2 + MERGE_GAP < b.y1 ∨ b.y2 + MERGE_GAP < a.y1 ∨
  a.y1 - MERGE_GAP > b.y2 ∨ b.y1 - MERGE_GAP > a.y2

instance (a b : Box) : Decidable (isSep a b) :=
  inferInstanceAs (Decidable (_ ∨ _ ∨ _ ∨ _ ∨ _ ∨ _ ∨ _ ∨ _))

/-- The bounding-box union (lines 85-87). -/
def unionBox (a b : Box) : Box :=
  ⟨min a.x1 b.x1, min a.y1 b.y1, max a.x2 b.x2, max a.y2 b.y2⟩

/-- The merge test of line 83: `iou(rects[i], rects[j]) >= IOU_TO_MERGE or
not separated`, where the iou uses the original box `ri = rects[i]` but the
separation test uses the accumulated union `acc`. -/
def stepCond (ri acc b : Box) : Prop := iouGe ri b ∨ ¬ isSep acc b

instance (ri acc b : Box) : Decidable (stepCond ri acc b) :=
  inferInstanceAs (Decidable (_ ∨ _))

/-- The pair condition at a fixed point of the merge loop: two boxes still
qualify for union if their IoU meets the threshold or they are not
separated even after gap expansion. -/
def mergeCond (a b : Box) : Prop := iouGe a b ∨ ¬ isSep a b

instance (a b : Box) : Decidable (mergeCond a b) :=
  inferInstanceAs (Decidable (_ ∨ _))

/-- The inner `for j in range(i+1, len(rects))` loop of the merge pass
(lines 74-90): accumulates unions into `acc`, marks merged indices in
`used`, and records whether anything changed. -/
def innerJ (l : List Box) (ri : Box) :
    List Nat → Box → List Bool → Bool → Box × List Bool × Bool
  | [], acc, used, ch => (acc, used, ch)
  | j :: js, acc, used, ch =>
    if used.getD j false then innerJ l ri js acc used ch
    else if stepCond ri acc (l.getD j default) then
      innerJ l ri js (unionBox acc (l.getD j default)) (used.set j true) true
    else innerJ l ri js acc used ch

/-- The outer `for i in range(len(rects))` loop of one merge pass
(lines 70-92). -/
def outerI (l : List Box) :
    List Nat → List Bool → Bool → List Box → List Box × Bool
  | [], _, ch, out => (out.reverse, ch)
  | i :: is', used, ch, out =>
    if used.getD i false then outerI l is' used ch out
    else
      let t := innerJ l (l.getD i default)
        (List.range' (i + 1) (l.length - (i + 1))) (l.getD i default) used ch
      outerI l is' (t.2.1.set i true) t.2.2 (t.1 :: out)

/-- One full pass of the `while changed` loop of `merge_boxes`
(lines 66-94): returns `(new_rects, changed)`. -/
def onePass (l : List Box) : List Box × Bool :=
  outerI l (List.range l.length) (List.replicate l.length false) false []

/-- The `while changed` loop (lines 64-94), with explicit fuel.
`mergeLoopFuel_stable` below proves that any fuel above the list length
gives the same result, so the fuelled model computes exactly the fixed
point the Python loop reaches. -/
def mergeLoopFuel : Nat → List Box → List Box
  | 0, l => l
  | fuel + 1, l =>
    let p := onePass l
    if p.2 then mergeLoopFuel fuel p.1 else p.1

/-- `merge_boxes(rects)` of `extractImage.py`: sort by decreasing area,
apply the containment-elimination pass, then run the union loop to its
fixed point. -/
def merge_boxes (l : List Box) : List Box :=
  mergeLoopFuel ((containPass (sortArea l)).length + 1) (containPass (sortArea l))

/-- A bounding rectangle `(x, y, w, h)` as returned by `cv2.boundingRect`
in the page loop (line 143). -/
structure RawRect where
  x : Int
  y : Int
  w : Int
  h : Int
deriving DecidableEq

/-- The candidate filtering of lines 142-147: skip rectangles with
`w < MIN_W or h < MIN_H`, convert the rest to `(x, y, x+w, y+h)`. -/
def sizeFilter (minW minH : Int) (cands : List RawRect) : List Box :=
  (cands.filter (fun c => decide (¬ (c.w < minW ∨ c.h < minH)))).map
    (fun c => ⟨c.x, c.y, c.x + c.w, c.y + c.h⟩)

/-- Lines 140-150 of the page loop: a single size filter with the primary
thresholds followed by `merge_boxes`.  The code contains no retry with a
relaxed minimum-size threshold. -/
def pageRects (cands : List RawRect) : List Box :=
  merge_boxes (sizeFilter MIN_W MIN_H cands)

/-- A page raster: dimensions and channel count (`pix.height`, `pix.width`,
`pix.n`). -/
structure Raster where
  height : Nat
  width : Nat
  channels : Nat
deriving DecidableEq

/-- The channel normalization of lines 109-111: only the 4-channel case is
converted (`cv2.cvtColor(img, cv2.COLOR_RGBA2RGB)`); any other channel
count is passed through unchanged. -/
def pageNormalize (pix : Raster) : Raster :=
  if pix.channels = 4 then { pix with channels := 3 } else pix

/-- `PAD_PX_MIN = 40`. -/
def PAD_PX_MIN : Int := 40

/-- `pad = int(max(w, h) * PAD_SCALE) + PAD_PX_MIN` (line 157), with
`PAD_SCALE = 0.12` modelled as `12/100`; for the nonnegative sizes that
occur, Python's truncation is the floor, and the clamping theorem below
holds for every nonnegative pad value. -/
def padOf (r : Box) : Int :=
  max (r.x2 - r.x1) (r.y2 - r.y1) * 12 / 100 + PAD_PX_MIN

/-- The padding and clamping of lines 160-163:
`px1 = max(0, x1-pad); py1 = max(0, y1-pad); px2 = min(W, x2+pad);
py2 = min(H, y2+pad)`. -/
def clampCrop (w h : Int) (r : Box) : Box :=
  ⟨max 0 (r.x1 - padOf r), max 0 (r.y1 - padOf r),
   min w (r.x2 + padOf r), min h (r.y2 + padOf r)⟩

/-- Strict lexicographic order on the `(r[1], r[0]) = (y1, x1)` sort key of
line 153. -/
def yxLt (r s : Box) : Prop := r.y1 < s.y1 ∨ (r.y1 = s.y1 ∧ r.x1 < s.x1)

instance (r s : Box) : Decidable (yxLt r s) :=
  inferInstanceAs (Decidable (_ ∨ _))

/-- Reflexive lexicographic order on the `(y1, x1)` sort key. -/
def yxLe (r s : Box) : Prop := r.y1 < s.y1 ∨ (r.y1 = s.y1 ∧ r.x1 ≤ s.x1)

/-- Stable insertion for the `(y1, x1)`-ascending sort. -/
def insertYX (x : Box) : List Box → List Box
  | [] => [x]
  | y :: ys => if yxLt y x then y :: insertYX x ys else x :: y :: ys

/-- `rects.sort(key=lambda r: (r[1], r[0]))` (line 153): stable ascending
sort by `(y1, x1)`; insertion sort is stable, hence a faithful model of
Python's stable sort. -/
def sortYX : List Box → List Box
  | [] => []
  | x :: xs => insertYX x (sortYX xs)

/-- The output filenames of one page (lines 153-167):
`page{page_idx+1}_diagram{i}.png`, `i` counted from 1 in the order of the
`(y, x)`-sorted merged set. -/
def exportNames (pageIdx : Nat) (l : List Box) : List String :=
  (sortYX l).enum.map
    (fun q => "page" ++ toString (pageIdx + 1) ++ "_diagram" ++
      toString (q.1 + 1) ++ ".png")

/-- The page indices the loop of line 101 actually processes: all of
`range(len(doc))` except index 0 (lines 103-104). -/
def pagesProcessed (numPages : Nat) : List Nat :=
  (List.range numPages).filter (fun i => decide (i ≠ 0))

/-- The `(N, K)` labels of all written artifacts `page<N>_diagram<K>.png`:
`N = page_idx + 1`, `K` the 1-based per-page index; `rectsOf p` is the
merged set of page index `p`. -/
def allArtifacts (numPages : Nat) (rectsOf : Nat → List Box) : List (Nat × Nat) :=
  (pagesProcessed numPages).flatMap
    (fun p => (List.range (sortYX (rectsOf p)).length).map (fun k => (p + 1, k + 1)))

/-- `cut = int(img.shape[0] * TOP_SKIP_RATIO_P2)` (line 116), with `0.35`
modelled as `35/100`; the theorems below hold for the float value as well
since they only use `0 ≤ cut ≤ height`. -/
def cutOf (hImg : Nat) : Nat := hImg * 35 / 100

/-- Geometric containment of boxes: `a` lies inside `b`. -/
def boxSub (a b : Box) : Prop :=
  b.x1 ≤ a.x1 ∧ b.y1 ≤ a.y1 ∧ a.x2 ≤ b.x2 ∧ a.y2 ≤ b.y2

instance (a b : Box) : Decidable (boxSub a b) :=
  inferInstanceAs (Decidable (_ ∧ _ ∧ _ ∧ _))

/-- A well-formed rectangle in the sense of the spec's data model:
positive width and height. -/
def Wf (b : Box) : Prop := b.x1 < b.x2 ∧ b.y1 < b.y2

instance (b : Box) : Decidable (Wf b) :=
  inferInstanceAs (Decidable (_ ∧ _))

/-- A rectangle lying within the raster bounds `[0, w] x [0, h]`. -/
def inBounds (w h : Int) (b : Box) : Prop :=
  0 ≤ b.x1 ∧ b.x1 ≤ b.x2 ∧ b.x2 ≤ w ∧ 0 ≤ b.y1 ∧ b.y1 ≤ b.y2 ∧ b.y2 ≤ h

instance (w h : Int) (b : Box) : Decidable (inBounds w h b) :=
  inferInstanceAs (Decidable (_ ∧ _ ∧ _ ∧ _ ∧ _ ∧ _))

theorem interArea_pos_of_ne (a b : Box) (h : interArea a b ≠ 0) :
    0 < interArea a b := (interAreaFacts a b h).1

theorem interArea_le_left (a b : Box) (h : interArea a b ≠ 0) :
    interArea a b ≤ boxArea a := (interAreaFacts a b h).2.1

theorem interArea_le_right (a b : Box) (h : interArea a b ≠ 0) :
    interArea a b ≤ boxArea b := (interAreaFacts a b h).2.2

theorem iouGe_iff (a b : Box) :
    iouGe a b ↔ interArea a b ≠ 0 ∧
      3 * (boxArea a + boxArea b - interArea a b) ≤ 10 * interArea a b :=
  iouGeIffAux a b

theorem fracGe_iff (inner outer : Box) :
    fracGe inner outer ↔ coordContained inner outer ∧
      9 * max (boxArea outer) 1 ≤ 10 * boxArea inner :=
  fracGeIffAux inner outer

/-- C1: the containment-elimination pass does NOT discard a rectangle 100%
of whose area overlaps a strictly larger rectangle of the same set: on the
spec's own scenario `[(10,10,200,200), (15,15,50,50)]` the pass keeps both
boxes, because `contained_ratio` divides the inner area by the OUTER area
(1225/36100 < 0.9) instead of comparing the overlap to the inner box's own
area. -/
theorem containPass_keeps_fully_contained_smaller_box :
    interArea ⟨15, 15, 50, 50⟩ ⟨10, 10, 200, 200⟩ = boxArea ⟨15, 15, 50, 50⟩ ∧
    boxArea ⟨15, 15, 50, 50⟩ < boxArea ⟨10, 10, 200, 200⟩ ∧
    ¬ fracGe ⟨15, 15, 50, 50⟩ ⟨10, 10, 200, 200⟩ ∧
    containPass (sortArea [⟨10, 10, 200, 200⟩, ⟨15, 15, 50, 50⟩]) =
      [⟨10, 10, 200, 200⟩, ⟨15, 15, 50, 50⟩] := by decide

/-- C2 (counterexample): detection with the primary thresholds can come up
empty while a relaxed threshold would find a candidate, and the code still
reports zero rectangles for the page: there is no retry. -/
theorem pageRects_no_retry_cex :
    sizeFilter MIN_W MIN_H [⟨0, 0, 60, 60⟩] = [] ∧
    sizeFilter 60 60 [⟨0, 0, 60, 60⟩] = [⟨0, 0, 60, 60⟩] ∧
    pageRects [⟨0, 0, 60, 60⟩] = [] := by decide

/-- C2 (amended): if the single size filter with the primary thresholds
(MIN_W = MIN_H = 80) yields an empty Candidate Set, the page yields zero
rectangles immediately; no relaxed retry exists in the code. -/
theorem pageRects_empty_of_primary_filter_empty (cands : List RawRect)
    (h : sizeFilter MIN_W MIN_H cands = []) : pageRects cands = [] := by
  unfold pageRects
  rw [h]
  rfl

theorem pageRects_empty_of_primary_filter_empty_witness :
    pageRects [⟨0, 0, 70, 90⟩] = [] :=
  pageRects_empty_of_primary_filter_empty [⟨0, 0, 70, 90⟩] (by decide)

/-- C6 (counterexample): a single-channel raster is NOT converted to
3-channel RGB; the page loop only has a branch for `pix.n == 4`. -/
theorem pageNormalize_single_channel_cex :
    (pageNormalize ⟨100, 80, 1⟩).channels = 1 ∧
    (pageNormalize ⟨100, 80, 1⟩).channels ≠ 3 := by decide

/-- C6 (amended): the channel normalization converts 4-channel rasters to
3-channel RGB and leaves every other channel count unchanged (in
particular, single-channel input is not converted). -/
theorem pageNormalize_channels (p : Raster) :
    (p.channels = 4 → (pageNormalize p).channels = 3) ∧
    (p.channels ≠ 4 → pageNormalize p = p) := by
  constructor
  · intro h
    simp [pageNormalize, h]
  · intro h
    simp [pageNormalize, h]

theorem pageNormalize_channels_witness :
    (pageNormalize ⟨10, 10, 4⟩).channels = 3 ∧
    pageNormalize ⟨10, 10, 1⟩ = ⟨10, 10, 1⟩ :=
  ⟨(pageNormalize_channels ⟨10, 10, 4⟩).1 (by decide),
   (pageNormalize_channels ⟨10, 10, 1⟩).2 (by decide)⟩

theorem insertYX_perm (x : Box) (l : List Box) : (insertYX x l).Perm (x :: l) := by
  induction l with
  | nil => exact List.Perm.refl _
  | cons y ys ih =>
    unfold insertYX
    by_cases h : yxLt y x
    · rw [if_pos h]
      exact (ih.cons y).trans (List.Perm.swap x y ys)
    · rw [if_neg h]

theorem sortYX_perm (l : List Box) : (sortYX l).Perm l := by
  induction l with
  | nil => exact List.Perm.refl _
  | cons x xs ih => exact (insertYX_perm x (sortYX xs)).trans (ih.cons x)

theorem yxLe_of_lt {r s : Box} (h : yxLt r s) : yxLe r s := by
  unfold yxLt at h
  unfold yxLe
  omega

theorem yxLe_of_not_lt {r s : Box} (h : ¬ yxLt s r) : yxLe r s := by
  unfold yxLt at h
  unfold yxLe
  omega

theorem yxLe_trans {r s t : Box} (h1 : yxLe r s) (h2 : yxLe s t) : yxLe r t := by
  unfold yxLe at h1 h2 ⊢
  omega

theorem pairwise_insertYX (x : Box) (l : List Box) (h : l.Pairwise yxLe) :
    (insertYX x l).Pairwise yxLe := by
  induction l with
  | nil => simp [insertYX]
  | cons y ys ih =>
    rcases List.pairwise_cons.mp h with ⟨hy, hys⟩
    unfold insertYX
    by_cases hlt : yxLt y x
    · rw [if_pos hlt]
      refine List.Pairwise.cons ?_ (ih hys)
      intro z hz
      rcases List.mem_cons.mp ((insertYX_perm x ys).mem_iff.mp hz) with rfl | hz'
      · exact yxLe_of_lt hlt
      · exact hy z hz'
    · rw [if_neg hlt]
      refine List.Pairwise.cons ?_ h
      intro z hz
      rcases List.mem_cons.mp hz with rfl | hz'
      · exact yxLe_of_not_lt hlt
      · exact yxLe_trans (yxLe_of_not_lt hlt) (hy z hz')

theorem sortYX_pairwise (l : List Box) : (sortYX l).Pairwise yxLe := by
  induction l with
  | nil => simp [sortYX]
  | cons x xs ih => exact pairwise_insertYX x _ ih

theorem exportNames_eq (p : Nat) (l : List Box) :
    exportNames p l = (List.range l.length).map
      (fun k => "page" ++ toString (p + 1) ++ "_diagram" ++ toString (k + 1) ++ ".png") := by
  unfold exportNames
  rw [← (sortYX_perm l).length_eq]
  calc (sortYX l).enum.map (fun q => "page" ++ toString (p + 1) ++ "_diagram" ++
          toString (q.1 + 1) ++ ".png")
      = ((sortYX l).enum.map Prod.fst).map (fun k => "page" ++ toString (p + 1) ++
          "_diagram" ++ toString (k + 1) ++ ".png") := by
        rw [List.map_map]
        rfl
    _ = (List.range (sortYX l).length).map (fun k => "page" ++ toString (p + 1) ++
          "_diagram" ++ toString (k + 1) ++ ".png") := by
        rw [List.enum_map_fst]

/-- C8: the exporter sorts the merged set by `(y, x)` ascending (the sorted
list is a permutation of the merged set and pairwise ordered by the
`(y1, x1)` key) before assigning 1-based sequence indices, and the ordered
sequence of output filenames is a pure function of the page index and the
merged set — `page<N>_diagram<K>.png` for `K = 1..len` — so re-running the
pipeline on an unchanged input yields the identical sequence. -/
theorem exporter_sorts_and_names_deterministically (p : Nat) (l : List Box) :
    (sortYX l).Perm l ∧ (sortYX l).Pairwise yxLe ∧
    exportNames p l = (List.range l.length).map
      (fun k => "page" ++ toString (p + 1) ++ "_diagram" ++ toString (k + 1) ++ ".png") :=
  ⟨sortYX_perm l, sortYX_pairwise l, exportNames_eq p l⟩

theorem pagesProcessed_pos (n p : Nat) (hp : p ∈ pagesProcessed n) : 1 ≤ p := by
  unfold pagesProcessed at hp
  rcases List.mem_filter.mp hp with ⟨_, h2⟩
  simp only [decide_eq_true_eq] at h2
  omega

/-- C10: no artifact is ever produced for the document's first page — the
label `(1, K)` of a filename `page1_diagram<K>.png` never occurs among the
artifacts, since page index 0 is skipped — and on page index 1 a rectangle
detected on the top-cropped raster (of height `H - cut`) occupies original
rows in `[cut, H]`, never in the removed top `cut = int(H*0.35)` rows. -/
theorem first_page_skipped_top_cropped :
    (∀ (numPages : Nat) (rectsOf : Nat → List Box) (K : Nat),
      (1, K) ∉ allArtifacts numPages rectsOf) ∧
    (∀ (hImg : Nat) (r : Box), 0 ≤ r.y1 → r.y1 ≤ r.y2 →
      r.y2 ≤ (hImg : Int) - (cutOf hImg : Int) →
      (cutOf hImg : Int) ≤ (cutOf hImg : Int) + r.y1 ∧
      (cutOf hImg : Int) + r.y2 ≤ (hImg : Int)) := by
  constructor
  · intro n rectsOf K hmem
    unfold allArtifacts at hmem
    rcases List.mem_flatMap.mp hmem with ⟨p, hp, hmem2⟩
    rcases List.mem_map.mp hmem2 with ⟨k, _, hk⟩
    have h1 := pagesProcessed_pos n p hp
    have h2 : p + 1 = 1 := congrArg Prod.fst hk
    omega
  · intro hImg r h1 h2 h3
    omega

theorem first_page_skipped_top_cropped_witness :
    ((1, 1) ∉ allArtifacts 3 (fun _ => [⟨0, 0, 100, 100⟩])) ∧
    ((cutOf 1000 : Int) ≤ (cutOf 1000 : Int) + 10 ∧
      (cutOf 1000 : Int) + 300 ≤ (1000 : Int)) :=
  ⟨first_page_skipped_top_cropped.1 3 (fun _ => [⟨0, 0, 100, 100⟩]) 1,
   first_page_skipped_top_cropped.2 1000 ⟨0, 10, 50, 300⟩ (by decide) (by decide)
     (by decide)⟩

theorem getD_mem_of_lt (l : List Box) (i : Nat) (h : i < l.length) :
    l.getD i default ∈ l := by
  rw [List.getD_eq_getElem l default h]
  exact List.getElem_mem h

theorem innerJ_pres {P : Box → Prop}
    (hu : ∀ a b, P a → P b → P (unionBox a b))
    (l : List Box) (ri : Box) (js : List Nat) (acc : Box) (used : List Bool)
    (ch : Bool) (hjs : ∀ j ∈ js, j < l.length) (hl : ∀ x ∈ l, P x)
    (hacc : P acc) : P (innerJ l ri js acc used ch).1 := by
  induction js generalizing acc used ch with
  | nil => exact hacc
  | cons j js' ih =>
    have hjs' : ∀ j' ∈ js', j' < l.length :=
      fun j' hj' => hjs j' (List.mem_cons_of_mem _ hj')
    rw [innerJ]
    by_cases h1 : used.getD j false
    · rw [if_pos h1]
      exact ih _ _ _ hjs' hacc
    · rw [if_neg h1]
      by_cases h2 : stepCond ri acc (l.getD j default)
      · rw [if_pos h2]
        exact ih _ _ _ hjs'
          (hu _ _ hacc (hl _ (getD_mem_of_lt l j (hjs j (List.mem_cons_self _ _)))))
      · rw [if_neg h2]
        exact ih _ _ _ hjs' hacc

theorem outerI_pres {P : Box → Prop}
    (hu : ∀ a b, P a → P b → P (unionBox a b)) (l : List Box)
    (is' : List Nat) (used : List Bool) (ch : Bool) (out : List Box)
    (his : ∀ i ∈ is', i < l.length) (hl : ∀ x ∈ l, P x)
    (hout : ∀ x ∈ out, P x) : ∀ y ∈ (outerI l is' used ch out).1, P y := by
  induction is' generalizing used ch out with
  | nil =>
    intro y hy
    rw [outerI] at hy
    exact hout y (List.mem_reverse.mp hy)
  | cons i is'' ih =>
    have his' : ∀ i' ∈ is'', i' < l.length :=
      fun i' hi' => his i' (List.mem_cons_of_mem _ hi')
    intro y hy
    rw [outerI] at hy
    by_cases h1 : used.getD i false
    · rw [if_pos h1] at hy
      exact ih _ _ _ his' hout y hy
    · rw [if_neg h1] at hy
      simp only at hy
      refine ih _ _ _ his' ?_ y hy
      intro x hx
      rcases List.mem_cons.mp hx with rfl | hx'
      · refine innerJ_pres hu l _ _ _ _ _ ?_ hl
          (hl _ (getD_mem_of_lt l i (his i (List.mem_cons_self _ _))))
        intro j hj
        have := List.mem_range'_1.mp hj
        omega
      · exact hout x hx'

theorem onePass_pres {P : Box → Prop}
    (hu : ∀ a b, P a → P b → P (unionBox a b)) (l : List Box)
    (hl : ∀ x ∈ l, P x) : ∀ y ∈ (onePass l).1, P y := by
  unfold onePass
  refine outerI_pres hu l _ _ _ _ ?_ hl ?_
  · intro i hi
    exact List.mem_range.mp hi
  · intro x hx
    cases hx

theorem mergeLoopFuel_pres {P : Box → Prop}
    (hu : ∀ a b, P a → P b → P (unionBox a b)) :
    ∀ (fuel : Nat) (l : List Box), (∀ x ∈ l, P x) →
      ∀ y ∈ mergeLoopFuel fuel l, P y := by
  intro fuel
  induction fuel with
  | zero => exact fun l hl y hy => hl y hy
  | succ f ih =>
    intro l hl y hy
    simp only [mergeLoopFuel] at hy
    by_cases hp : (onePass l).2
    · rw [if_pos hp] at hy
      exact ih _ (onePass_pres hu l hl) y hy
    · rw [if_neg hp] at hy
      exact onePass_pres hu l hl y hy

theorem containPass_subset (l : List Box) : ∀ x ∈ containPass l, x ∈ l := by
  intro x hx
  unfold containPass at hx
  rcases List.mem_map.mp hx with ⟨i, hi, rfl⟩
  exact getD_mem_of_lt l i (List.mem_range.mp (List.mem_filter.mp hi).1)

theorem insertArea_perm (x : Box) (l : List Box) :
    (insertArea x l).Perm (x :: l) := by
  induction l with
  | nil => exact List.Perm.refl _
  | cons y ys ih =>
    unfold insertArea
    by_cases h : boxArea x < boxArea y
    · rw [if_pos h]
      exact (ih.cons y).trans (List.Perm.swap x y ys)
    · rw [if_neg h]

theorem sortArea_perm (l : List Box) : (sortArea l).Perm l := by
  induction l with
  | nil => exact List.Perm.refl _
  | cons x xs ih => exact (insertArea_perm x (sortArea xs)).trans (ih.cons x)

theorem merge_boxes_pres {P : Box → Prop}
    (hu : ∀ a b, P a → P b → P (unionBox a b))
    (l : List Box) (hl : ∀ x ∈ l, P x) : ∀ y ∈ merge_boxes l, P y := by
  unfold merge_boxes
  apply mergeLoopFuel_pres hu
  intro x hx
  exact hl x ((sortArea_perm l).mem_iff.mp (containPass_subset _ x hx))

theorem union_inBounds (w h : Int) (a b : Box) (ha : inBounds w h a)
    (hb : inBounds w h b) : inBounds w h (unionBox a b) := by
  unfold inBounds at ha hb ⊢
  unfold unionBox
  simp only
  omega

theorem padOf_nonneg (r : Box) (h : r.x1 ≤ r.x2) (_h' : r.y1 ≤ r.y2) :
    0 ≤ padOf r := by
  unfold padOf PAD_PX_MIN
  have h0 : 0 ≤ max (r.x2 - r.x1) (r.y2 - r.y1) :=
    le_trans (by omega) (le_max_left (r.x2 - r.x1) (r.y2 - r.y1))
  have h1 : 0 ≤ max (r.x2 - r.x1) (r.y2 - r.y1) * 12 :=
    mul_nonneg h0 (by norm_num)
  have h2 : 0 ≤ max (r.x2 - r.x1) (r.y2 - r.y1) * 12 / 100 :=
    Int.ediv_nonneg h1 (by norm_num)
  omega

/-- C7: for every rectangle of the merged set of a candidate list lying
within the raster bounds, the padded crop rectangle of the exporter is
clamped back into `[0, w] x [0, h]`: `0 ≤ px1 ≤ px2 ≤ w` and
`0 ≤ py1 ≤ py2 ≤ h`, even when the requested padding extends past the
raster edge. -/
theorem clampCrop_within_raster (w h : Int) (l : List Box) (r : Box)
    (hl : ∀ b ∈ l, inBounds w h b) (hr : r ∈ merge_boxes l) :
    0 ≤ (clampCrop w h r).x1 ∧ (clampCrop w h r).x1 ≤ (clampCrop w h r).x2 ∧
    (clampCrop w h r).x2 ≤ w ∧ 0 ≤ (clampCrop w h r).y1 ∧
    (clampCrop w h r).y1 ≤ (clampCrop w h r).y2 ∧ (clampCrop w h r).y2 ≤ h := by
  have hb : inBounds w h r := merge_boxes_pres (union_inBounds w h) l hl r hr
  have hpad : 0 ≤ padOf r := padOf_nonneg r hb.2.1 hb.2.2.2.2.1
  unfold inBounds at hb
  unfold clampCrop
  simp only
  omega

theorem clampCrop_within_raster_witness :
    0 ≤ (clampCrop 500 500 ⟨10, 10, 200, 200⟩).x1 ∧
    (clampCrop 500 500 ⟨10, 10, 200, 200⟩).x1 ≤ (clampCrop 500 500 ⟨10, 10, 200, 200⟩).x2 ∧
    (clampCrop 500 500 ⟨10, 10, 200, 200⟩).x2 ≤ 500 ∧
    0 ≤ (clampCrop 500 500 ⟨10, 10, 200, 200⟩).y1 ∧
    (clampCrop 500 500 ⟨10, 10, 200, 200⟩).y1 ≤ (clampCrop 500 500 ⟨10, 10, 200, 200⟩).y2 ∧
    (clampCrop 500 500 ⟨10, 10, 200, 200⟩).y2 ≤ 500 :=
  clampCrop_within_raster 500 500 [⟨10, 10, 200, 200⟩] ⟨10, 10, 200, 200⟩
    (by decide) (by decide)

theorem getD_set_ne_bool (us : List Bool) (k i : Nat) (h : k ≠ i) :
    (us.set k true).getD i false = us.getD i false := by
  by_cases hi : i < us.length
  · rw [List.getD_eq_getElem _ _ (by simpa using hi), List.getD_eq_getElem _ _ hi]
    exact List.getElem_set_ne h _
  · rw [List.getD_eq_default _ _ (by simpa using not_lt.mp hi),
      List.getD_eq_default _ _ (not_lt.mp hi)]

theorem getD_set_self_bool (us : List Bool) (k : Nat) (h : k < us.length) :
    (us.set k true).getD k false = true := by
  rw [List.getD_eq_getElem _ _ (by simpa using h)]
  simp

theorem getD_set_true_mono (us : List Bool) (j m : Nat)
    (h : us.getD m false = true) : (us.set j true).getD m false = true := by
  by_cases hjm : j = m
  · subst hjm
    by_cases hj : j < us.length
    · exact getD_set_self_bool us j hj
    · rw [List.set_eq_of_length_le (not_lt.mp hj)]
      exact h
  · rw [getD_set_ne_bool us j m hjm]
    exact h

theorem getD_replicate_false (n i : Nat) :
    (List.replicate n false).getD i false = false := by
  by_cases h : i < n
  · rw [List.getD_eq_getElem _ _ (by simpa using h)]
    simp
  · rw [List.getD_eq_default _ _ (by simpa using not_lt.mp h)]

theorem innerJ_ch_true (l : List Box) (ri : Box) :
    ∀ (js : List Nat) (acc : Box) (used : List Bool),
      (innerJ l ri js acc used true).2.2 = true := by
  intro js
  induction js with
  | nil => intro acc used; rfl
  | cons j js' ih =>
    intro acc used
    rw [innerJ]
    by_cases h1 : used.getD j false
    · rw [if_pos h1]; exact ih _ _
    · rw [if_neg h1]
      by_cases h2 : stepCond ri acc (l.getD j default)
      · rw [if_pos h2]; exact ih _ _
      · rw [if_neg h2]; exact ih _ _

theorem innerJ_false_inv (l : List Box) (ri : Box) :
    ∀ (js : List Nat) (acc : Box) (used : List Bool) (ch : Bool),
      (innerJ l ri js acc used ch).2.2 = false →
      ch = false ∧ innerJ l ri js acc used ch = (acc, used, false) ∧
      (∀ j ∈ js, used.getD j false = false →
        ¬ stepCond ri acc (l.getD j default)) := by
  intro js
  induction js with
  | nil =>
    intro acc used ch h
    have hch : ch = false := h
    subst hch
    exact ⟨rfl, rfl, fun j hj => absurd hj (List.not_mem_nil j)⟩
  | cons j js' ih =>
    intro acc used ch h
    rw [innerJ] at h
    by_cases h1 : used.getD j false
    · rw [if_pos h1] at h
      obtain ⟨hch, heq, hall⟩ := ih acc used ch h
      refine ⟨hch, by rw [innerJ, if_pos h1]; exact heq, ?_⟩
      intro j' hj' hu'
      rcases List.mem_cons.mp hj' with rfl | hmem
      · rw [hu'] at h1
        exact Bool.noConfusion h1
      · exact hall j' hmem hu'
    · rw [if_neg h1] at h
      by_cases h2 : stepCond ri acc (l.getD j default)
      · rw [if_pos h2] at h
        rw [innerJ_ch_true l ri js' (unionBox acc (l.getD j default))
          (used.set j true)] at h
        exact Bool.noConfusion h
      · rw [if_neg h2] at h
        obtain ⟨hch, heq, hall⟩ := ih acc used ch h
        refine ⟨hch, by rw [innerJ, if_neg h1, if_neg h2]; exact heq, ?_⟩
        intro j' hj' hu'
        rcases List.mem_cons.mp hj' with rfl | hmem
        · exact h2
        · exact hall j' hmem hu'

theorem innerJ_of_all_fail (l : List Box) (ri : Box) :
    ∀ (js : List Nat) (acc : Box) (used : List Bool) (ch : Bool),
      (∀ j ∈ js, ¬ stepCond ri acc (l.getD j default)) →
      innerJ l ri js acc used ch = (acc, used, ch) := by
  intro js
  induction js with
  | nil => intro acc used ch _; rfl
  | cons j js' ih =>
    intro acc used ch hall
    rw [innerJ]
    by_cases h1 : used.getD j false
    · rw [if_pos h1]
      exact ih acc used ch (fun j' hj' => hall j' (List.mem_cons_of_mem _ hj'))
    · rw [if_neg h1, if_neg (hall j (List.mem_cons_self _ _))]
      exact ih acc used ch (fun j' hj' => hall j' (List.mem_cons_of_mem _ hj'))

theorem map_getD_drop (l : List Box) :
    ∀ (m k : Nat), k + m = l.length →
      (List.range' k m).map (fun i => l.getD i default) = l.drop k := by
  intro m
  induction m with
  | zero =>
    intro k hk
    have hkl : k = l.length := by omega
    rw [show List.range' k 0 = [] from rfl, List.map_nil, hkl, List.drop_length]
  | succ m ih =>
    intro k hk
    rw [List.range'_succ, List.map_cons, ih (k + 1) (by omega),
      List.getD_eq_getElem _ _ (by omega)]
    exact (List.drop_eq_getElem_cons (by omega)).symm

theorem outerI_ch_true (l : List Box) :
    ∀ (is' : List Nat) (used : List Bool) (out : List Box),
      (outerI l is' used true out).2 = true := by
  intro is'
  induction is' with
  | nil => intro used out; rfl
  | cons i is'' ih =>
    intro used out
    rw [outerI]
    by_cases h1 : used.getD i false
    · rw [if_pos h1]
      exact ih _ _
    · rw [if_neg h1]
      simp only
      rw [innerJ_ch_true l (l.getD i default)
        (List.range' (i + 1) (l.length - (i + 1))) (l.getD i default) used]
      exact ih _ _

theorem outerI_false_inv (l : List Box) :
    ∀ (m k : Nat) (used : List Bool) (ch : Bool) (out : List Box),
      k + m = l.length →
      (∀ i, k ≤ i → used.getD i false = false) →
      (outerI l (List.range' k m) used ch out).2 = false →
      ch = false ∧
      (outerI l (List.range' k m) used ch out).1 = out.reverse ++ l.drop k ∧
      (∀ i j, k ≤ i → i < j → j < l.length →
        ¬ stepCond (l.getD i default) (l.getD i default) (l.getD j default)) := by
  intro m
  induction m with
  | zero =>
    intro k used ch out hk _ h
    rw [show List.range' k 0 = [] from rfl, outerI] at h ⊢
    have hkl : k = l.length := by omega
    refine ⟨h, ?_, ?_⟩
    · rw [hkl, List.drop_length, List.append_nil]
    · intro i j hi hij hj hst
      omega
  | succ m ih =>
    intro k used ch out hk hused h
    have hu0 : ¬ (used.getD k false = true) := by
      rw [hused k (le_refl k)]
      simp
    rw [List.range'_succ, outerI, if_neg hu0] at h ⊢
    simp only at h ⊢
    have hm : l.length - (k + 1) = m := by omega
    rw [hm] at h ⊢
    by_cases hb : (innerJ l (l.getD k default) (List.range' (k + 1) m)
        (l.getD k default) used ch).2.2
    · exfalso
      rw [hb, outerI_ch_true] at h
      exact Bool.noConfusion h
    · simp only [Bool.not_eq_true] at hb
      obtain ⟨hch, heq, hfail⟩ := innerJ_false_inv l _ _ _ _ _ hb
      rw [heq] at h ⊢
      simp only at h ⊢
      have hused' : ∀ i, k + 1 ≤ i → (used.set k true).getD i false = false := by
        intro i hi
        rw [getD_set_ne_bool used k i (by omega)]
        exact hused i (by omega)
      obtain ⟨_, hres, hpair⟩ :=
        ih (k + 1) (used.set k true) false (l.getD k default :: out) (by omega) hused' h
      refine ⟨hch, ?_, ?_⟩
      · rw [hres, List.reverse_cons, List.append_assoc, List.singleton_append,
          List.getD_eq_getElem _ _ (by omega)]
        rw [(List.drop_eq_getElem_cons (by omega)).symm]
      · intro i j hi hij hj
        rcases eq_or_lt_of_le hi with rfl | hik
        · exact hfail j (List.mem_range'_1.mpr ⟨by omega, by omega⟩)
            (hused j (by omega))
        · exact hpair i j (by omega) hij hj

theorem outerI_of_pairwise_fail (l : List Box) :
    ∀ (m k : Nat) (used : List Bool) (ch : Bool) (out : List Box),
      k + m = l.length →
      (∀ i, k ≤ i → used.getD i false = false) →
      (∀ i j, k ≤ i → i < j → j < l.length →
        ¬ stepCond (l.getD i default) (l.getD i default) (l.getD j default)) →
      outerI l (List.range' k m) used ch out = (out.reverse ++ l.drop k, ch) := by
  intro m
  induction m with
  | zero =>
    intro k used ch out hk _ _
    rw [show List.range' k 0 = [] from rfl, outerI]
    have hkl : k = l.length := by omega
    rw [hkl, List.drop_length, List.append_nil]
  | succ m ih =>
    intro k used ch out hk hused hpairs
    have hu0 : ¬ (used.getD k false = true) := by
      rw [hused k (le_refl k)]
      simp
    rw [List.range'_succ, outerI, if_neg hu0]
    simp only
    have hm : l.length - (k + 1) = m := by omega
    rw [hm]
    have hallfail : ∀ j ∈ List.range' (k + 1) m,
        ¬ stepCond (l.getD k default) (l.getD k default) (l.getD j default) := by
      intro j hj
      have := List.mem_range'_1.mp hj
      exact hpairs k j (le_refl k) (by omega) (by omega)
    rw [innerJ_of_all_fail l _ _ _ _ _ hallfail]
    simp only
    have hused' : ∀ i, k + 1 ≤ i → (used.set k true).getD i false = false := by
      intro i hi
      rw [getD_set_ne_bool used k i (by omega)]
      exact hused i (by omega)
    rw [ih (k + 1) (used.set k true) ch (l.getD k default :: out) (by omega) hused'
      (fun i j hi hij hj => hpairs i j (by omega) hij hj)]
    rw [List.reverse_cons, List.append_assoc, List.singleton_append,
      List.getD_eq_getElem _ _ (by omega)]
    rw [(List.drop_eq_getElem_cons (by omega)).symm]

theorem onePass_false_inv (l : List Box) (h : (onePass l).2 = false) :
    (onePass l).1 = l ∧
    (∀ i j, i < j → j < l.length →
      ¬ mergeCond (l.getD i default) (l.getD j default)) := by
  unfold onePass at h ⊢
  rw [List.range_eq_range'] at h ⊢
  have hused : ∀ i, 0 ≤ i → (List.replicate l.length false).getD i false = false :=
    fun i _ => getD_replicate_false l.length i
  obtain ⟨_, hres, hpair⟩ := outerI_false_inv l l.length 0
    (List.replicate l.length false) false [] (by omega) hused h
  refine ⟨by rw [hres]; rfl, ?_⟩
  intro i j hij hj
  exact hpair i j (Nat.zero_le i) hij hj

theorem onePass_of_pairwise_fail (l : List Box)
    (h : ∀ i j, i < j → j < l.length →
      ¬ mergeCond (l.getD i default) (l.getD j default)) :
    onePass l = (l, false) := by
  unfold onePass
  rw [List.range_eq_range']
  rw [outerI_of_pairwise_fail l l.length 0 (List.replicate l.length false) false []
    (by omega) (fun i _ => getD_replicate_false l.length i)
    (fun i j _ hij hj => h i j hij hj)]
  rfl

theorem innerJ_used_length (l : List Box) (ri : Box) :
    ∀ (js : List Nat) (acc : Box) (used : List Bool) (ch : Bool),
      ((innerJ l ri js acc used ch).2.1).length = used.length := by
  intro js
  induction js with
  | nil => intros; rfl
  | cons j js' ih =>
    intro acc used ch
    rw [innerJ]
    by_cases h1 : used.getD j false
    · rw [if_pos h1]
      exact ih _ _ _
    · rw [if_neg h1]
      by_cases h2 : stepCond ri acc (l.getD j default)
      · rw [if_pos h2, ih _ _ _, List.length_set]
      · rw [if_neg h2]
        exact ih _ _ _

theorem innerJ_used_mono (l : List Box) (ri : Box) :
    ∀ (js : List Nat) (acc : Box) (used : List Bool) (ch : Bool) (m : Nat),
      used.getD m false = true →
      ((innerJ l ri js acc used ch).2.1).getD m false = true := by
  intro js
  induction js with
  | nil => intro acc used ch m h; exact h
  | cons j js' ih =>
    intro acc used ch m h
    rw [innerJ]
    by_cases h1 : used.getD j false
    · rw [if_pos h1]
      exact ih _ _ _ _ h
    · rw [if_neg h1]
      by_cases h2 : stepCond ri acc (l.getD j default)
      · rw [if_pos h2]
        exact ih _ _ _ _ (getD_set_true_mono used j m h)
      · rw [if_neg h2]
        exact ih _ _ _ _ h

theorem innerJ_marks (l : List Box) (ri : Box) :
    ∀ (js : List Nat) (acc : Box) (used : List Bool),
      (∀ j ∈ js, j < used.length) →
      (innerJ l ri js acc used false).2.2 = true →
      ∃ j ∈ js, used.getD j false = false ∧
        ((innerJ l ri js acc used false).2.1).getD j false = true := by
  intro js
  induction js with
  | nil =>
    intro acc used _ h
    exact Bool.noConfusion h
  | cons j js' ih =>
    intro acc used hlt h
    rw [innerJ] at h ⊢
    by_cases h1 : used.getD j false
    · rw [if_pos h1] at h ⊢
      obtain ⟨j', hj', hu', hset'⟩ :=
        ih acc used (fun x hx => hlt x (List.mem_cons_of_mem _ hx)) h
      exact ⟨j', List.mem_cons_of_mem _ hj', hu', hset'⟩
    · rw [if_neg h1] at h ⊢
      by_cases h2 : stepCond ri acc (l.getD j default)
      · rw [if_pos h2] at h ⊢
        refine ⟨j, List.mem_cons_self _ _, by simpa using h1, ?_⟩
        exact innerJ_used_mono l ri js' _ _ _ j
          (getD_set_self_bool used j (hlt j (List.mem_cons_self _ _)))
      · rw [if_neg h2] at h ⊢
        obtain ⟨j', hj', hu', hset'⟩ :=
          ih acc used (fun x hx => hlt x (List.mem_cons_of_mem _ hx)) h
        exact ⟨j', List.mem_cons_of_mem _ hj', hu', hset'⟩

theorem countP_lt_of_flip {α : Type} (p q : α → Bool) :
    ∀ (is' : List α), (∀ i ∈ is', p i = true → q i = true) →
      ∀ j ∈ is', q j = true → p j = false →
      is'.countP p < is'.countP q := by
  intro is'
  induction is' with
  | nil =>
    intro _ j hj
    exact absurd hj (List.not_mem_nil j)
  | cons a t ih =>
    intro hmono j hj hq hp
    rw [List.countP_cons, List.countP_cons]
    have hmt : ∀ i ∈ t, p i = true → q i = true :=
      fun x hx => hmono x (List.mem_cons_of_mem _ hx)
    have hle : t.countP p ≤ t.countP q := List.countP_mono_left hmt
    rcases List.mem_cons.mp hj with rfl | hjt
    · simp [hp, hq]
      omega
    · have hlt := ih hmt j hjt hq hp
      have hhead : (if p a then 1 else 0) ≤ (if q a then 1 else 0) := by
        by_cases hpa : p a = true
        · rw [if_pos hpa, if_pos (hmono a (List.mem_cons_self _ _) hpa)]
        · simp [hpa]
      omega

theorem outerI_length_le (l : List Box) :
    ∀ (m k : Nat) (used : List Bool) (ch : Bool) (out : List Box),
      k + m = l.length → used.length = l.length →
      (outerI l (List.range' k m) used ch out).1.length ≤
        out.length + (List.range' k m).countP (fun i => !used.getD i false) := by
  intro m
  induction m with
  | zero =>
    intro k used ch out _ _
    rw [show List.range' k 0 = [] from rfl, outerI]
    simp
  | succ m ih =>
    intro k used ch out hk hlen
    rw [List.range'_succ, outerI]
    by_cases h1 : used.getD k false
    · rw [if_pos h1]
      have hcnt : (k :: List.range' (k + 1) m).countP (fun i => !used.getD i false) =
          (List.range' (k + 1) m).countP (fun i => !used.getD i false) := by
        rw [List.countP_cons]
        rw [h1]
        simp
      rw [hcnt]
      exact ih (k + 1) used ch out (by omega) hlen
    · rw [if_neg h1]
      simp only
      have hf : used.getD k false = false := by simpa using h1
      have hm : l.length - (k + 1) = m := by omega
      rw [hm]
      have hcnt : (k :: List.range' (k + 1) m).countP (fun i => !used.getD i false) =
          (List.range' (k + 1) m).countP (fun i => !used.getD i false) + 1 := by
        rw [List.countP_cons]
        rw [hf]
        simp
      have hlen' : ((innerJ l (l.getD k default) (List.range' (k + 1) m)
          (l.getD k default) used ch).2.1.set k true).length = l.length := by
        rw [List.length_set, innerJ_used_length]
        exact hlen
      have hpart := ih (k + 1)
        ((innerJ l (l.getD k default) (List.range' (k + 1) m)
          (l.getD k default) used ch).2.1.set k true)
        (innerJ l (l.getD k default) (List.range' (k + 1) m)
          (l.getD k default) used ch).2.2
        ((innerJ l (l.getD k default) (List.range' (k + 1) m)
          (l.getD k default) used ch).1 :: out) (by omega) hlen'
      have hmono : (List.range' (k + 1) m).countP
          (fun i => !((innerJ l (l.getD k default) (List.range' (k + 1) m)
            (l.getD k default) used ch).2.1.set k true).getD i false) ≤
          (List.range' (k + 1) m).countP (fun i => !used.getD i false) := by
        apply List.countP_mono_left
        intro i hi
        simp only [Bool.not_eq_true']
        intro hset
        by_contra hne
        have hu : used.getD i false = true := by
          cases hv : used.getD i false
          · exact absurd hv hne
          · rfl
        have h2 : ((innerJ l (l.getD k default) (List.range' (k + 1) m)
            (l.getD k default) used ch).2.1).getD i false = true :=
          innerJ_used_mono l _ _ _ _ _ _ hu
        have h3 := getD_set_true_mono
          (innerJ l (l.getD k default) (List.range' (k + 1) m)
            (l.getD k default) used ch).2.1 k i h2
        rw [h3] at hset
        exact Bool.noConfusion hset
      simp only [List.length_cons] at hpart
      omega

theorem outerI_length_lt (l : List Box) :
    ∀ (m k : Nat) (used : List Bool) (out : List Box),
      k + m = l.length → used.length = l.length →
      (outerI l (List.range' k m) used false out).2 = true →
      (outerI l (List.range' k m) used false out).1.length <
        out.length + (List.range' k m).countP (fun i => !used.getD i false) := by
  intro m
  induction m with
  | zero =>
    intro k used out _ _ h
    rw [show List.range' k 0 = [] from rfl, outerI] at h
    exact Bool.noConfusion h
  | succ m ih =>
    intro k used out hk hlen h
    rw [List.range'_succ, outerI] at h ⊢
    by_cases h1 : used.getD k false
    · rw [if_pos h1] at h ⊢
      have hcnt : (k :: List.range' (k + 1) m).countP (fun i => !used.getD i false) =
          (List.range' (k + 1) m).countP (fun i => !used.getD i false) := by
        rw [List.countP_cons]
        rw [h1]
        simp
      rw [hcnt]
      exact ih (k + 1) used out (by omega) hlen h
    · rw [if_neg h1] at h ⊢
      simp only at h ⊢
      have hf : used.getD k false = false := by simpa using h1
      have hm : l.length - (k + 1) = m := by omega
      rw [hm] at h ⊢
      have hcnt : (k :: List.range' (k + 1) m).countP (fun i => !used.getD i false) =
          (List.range' (k + 1) m).countP (fun i => !used.getD i false) + 1 := by
        rw [List.countP_cons]
        rw [hf]
        simp
      cases hb : (innerJ l (l.getD k default) (List.range' (k + 1) m)
          (l.getD k default) used false).2.2 with
      | false =>
        obtain ⟨_, heq, _⟩ := innerJ_false_inv l _ _ _ _ _ hb
        rw [heq] at h ⊢
        simp only at h ⊢
        have hused' : ∀ i ∈ List.range' (k + 1) m,
            (!(used.set k true).getD i false) = (!used.getD i false) := by
          intro i hi
          have := List.mem_range'_1.mp hi
          rw [getD_set_ne_bool used k i (by omega)]
        have hccongr : (List.range' (k + 1) m).countP
            (fun i => !(used.set k true).getD i false) =
            (List.range' (k + 1) m).countP (fun i => !used.getD i false) := by
          apply List.countP_congr
          intro x hx
          rw [hused' x hx]
        have hrec := ih (k + 1) (used.set k true) (l.getD k default :: out)
          (by omega) (by rw [List.length_set]; exact hlen) h
        rw [hccongr] at hrec
        simp only [List.length_cons] at hrec
        omega
      | true =>
        have hjslt : ∀ j ∈ List.range' (k + 1) m, j < used.length := by
          intro j hj
          have := List.mem_range'_1.mp hj
          omega
        obtain ⟨j, hjmem, hju, hjset⟩ :=
          innerJ_marks l (l.getD k default) (List.range' (k + 1) m)
            (l.getD k default) used hjslt hb
        have hlen' : ((innerJ l (l.getD k default) (List.range' (k + 1) m)
            (l.getD k default) used false).2.1.set k true).length = l.length := by
          rw [List.length_set, innerJ_used_length]
          exact hlen
        have hpart := outerI_length_le l m (k + 1)
          ((innerJ l (l.getD k default) (List.range' (k + 1) m)
            (l.getD k default) used false).2.1.set k true)
          true
          ((innerJ l (l.getD k default) (List.range' (k + 1) m)
            (l.getD k default) used false).1 :: out) (by omega) hlen'
        have hmono : ∀ i ∈ List.range' (k + 1) m,
            (!((innerJ l (l.getD k default) (List.range' (k + 1) m)
              (l.getD k default) used false).2.1.set k true).getD i false) = true →
            (!used.getD i false) = true := by
          intro i _ hset
          simp only [Bool.not_eq_true'] at hset ⊢
          by_contra hne
          have hu : used.getD i false = true := by
            cases hv : used.getD i false
            · exact absurd hv hne
            · rfl
          have h2 : ((innerJ l (l.getD k default) (List.range' (k + 1) m)
              (l.getD k default) used false).2.1).getD i false = true :=
            innerJ_used_mono l _ _ _ _ _ _ hu
          have h3 := getD_set_true_mono
            (innerJ l (l.getD k default) (List.range' (k + 1) m)
              (l.getD k default) used false).2.1 k i h2
          rw [h3] at hset
          exact Bool.noConfusion hset
        have hjne : j ≠ k := by
          have := List.mem_range'_1.mp hjmem
          omega
        have hstrict : (List.range' (k + 1) m).countP
            (fun i => !((innerJ l (l.getD k default) (List.range' (k + 1) m)
              (l.getD k default) used false).2.1.set k true).getD i false) <
            (List.range' (k + 1) m).countP (fun i => !used.getD i false) := by
          apply countP_lt_of_flip _ _ _ hmono j hjmem
          · show (!used.getD j false) = true
            rw [hju]
            rfl
          · show (!((innerJ l (l.getD k default) (List.range' (k + 1) m)
                (l.getD k default) used false).2.1.set k true).getD j false) = false
            rw [getD_set_ne_bool _ k j hjne.symm, hjset]
            rfl
        simp only [List.length_cons] at hpart
        omega

theorem countP_replicate_range (n m : Nat) :
    (List.range' 0 m).countP
      (fun i => !(List.replicate n false).getD i false) = m := by
  have h1 : ∀ a ∈ List.range' 0 m,
      (fun i => !(List.replicate n false).getD i false) a = true := by
    intro a _
    show (!(List.replicate n false).getD a false) = true
    rw [getD_replicate_false]
    rfl
  rw [List.countP_eq_length.mpr h1, List.length_range']

theorem onePass_length_le (l : List Box) : (onePass l).1.length ≤ l.length := by
  unfold onePass
  rw [List.range_eq_range']
  have h := outerI_length_le l l.length 0 (List.replicate l.length false) false []
    (by omega) (by simp)
  rw [countP_replicate_range] at h
  simpa using h

theorem onePass_length_lt (l : List Box) (h : (onePass l).2 = true) :
    (onePass l).1.length < l.length := by
  unfold onePass at h ⊢
  rw [List.range_eq_range'] at h ⊢
  have h2 := outerI_length_lt l l.length 0 (List.replicate l.length false) []
    (by omega) (by simp) h
  rw [countP_replicate_range] at h2
  simpa using h2

theorem mergeLoopFuel_stable : ∀ (f g : Nat) (l : List Box),
    l.length < f → l.length < g → mergeLoopFuel f l = mergeLoopFuel g l := by
  intro f
  induction f with
  | zero =>
    intro g l hf
    exact absurd hf (by omega)
  | succ f ih =>
    intro g l hf hg
    cases g with
    | zero => exact absurd hg (by omega)
    | succ g' =>
      simp only [mergeLoopFuel]
      by_cases hp : (onePass l).2
      · rw [if_pos hp, if_pos hp]
        have hlt := onePass_length_lt l hp
        exact ih g' (onePass l).1 (by omega) (by omega)
      · rw [if_neg hp, if_neg hp]

theorem mergeLoopFuel_fixpoint : ∀ (fuel : Nat) (l : List Box),
    l.length < fuel → (onePass (mergeLoopFuel fuel l)).2 = false := by
  intro fuel
  induction fuel with
  | zero =>
    intro l h
    exact absurd h (by omega)
  | succ f ih =>
    intro l h
    simp only [mergeLoopFuel]
    by_cases hp : (onePass l).2
    · rw [if_pos hp]
      have hlt := onePass_length_lt l hp
      exact ih (onePass l).1 (by omega)
    · rw [if_neg hp]
      have hp' : (onePass l).2 = false := by simpa using hp
      rw [(onePass_false_inv l hp').1]
      exact hp'

theorem merge_boxes_fixpoint (l : List Box) :
    (onePass (merge_boxes l)).2 = false := by
  unfold merge_boxes
  exact mergeLoopFuel_fixpoint _ _ (by omega)

theorem merge_boxes_pairwise_fail (l : List Box) :
    ∀ i j, i < j → j < (merge_boxes l).length →
      ¬ mergeCond ((merge_boxes l).getD i default)
        ((merge_boxes l).getD j default) :=
  fun i j hij hj =>
    (onePass_false_inv _ (merge_boxes_fixpoint l)).2 i j hij hj

/-- C4: the union loop of `merge_boxes` terminates on every finite input:
a full pass either reports a change and strictly decreases the rectangle
count, or reports no change and returns its input unchanged (it never
re-splits a merged rectangle), so the fixed-point iteration is bounded by
the rectangle count — any fuel above the input length gives the same
result. -/
theorem merge_loop_terminates (l : List Box) :
    ((onePass l).2 = true → (onePass l).1.length < l.length) ∧
    ((onePass l).2 = false → (onePass l).1 = l) ∧
    (∀ f g : Nat, l.length < f → l.length < g →
      mergeLoopFuel f l = mergeLoopFuel g l) :=
  ⟨onePass_length_lt l, fun h => (onePass_false_inv l h).1,
   fun f g hf hg => mergeLoopFuel_stable f g l hf hg⟩

theorem merge_loop_terminates_witness :
    (onePass [⟨0, 0, 100, 100⟩, ⟨50, 50, 150, 150⟩]).2 = true ∧
    (onePass [⟨0, 0, 100, 100⟩, ⟨50, 50, 150, 150⟩]).1.length < 2 ∧
    mergeLoopFuel 3 [⟨0, 0, 100, 100⟩, ⟨50, 50, 150, 150⟩] =
      mergeLoopFuel 5 [⟨0, 0, 100, 100⟩, ⟨50, 50, 150, 150⟩] :=
  ⟨by decide,
   (merge_loop_terminates [⟨0, 0, 100, 100⟩, ⟨50, 50, 150, 150⟩]).1 (by decide),
   (merge_loop_terminates [⟨0, 0, 100, 100⟩, ⟨50, 50, 150, 150⟩]).2.2 3 5
     (by decide) (by decide)⟩

theorem interW_comm (a b : Box) : interW a b = interW b a := by
  unfold interW
  rw [min_comm a.x2 b.x2, max_comm a.x1 b.x1]

theorem interH_comm (a b : Box) : interH a b = interH b a := by
  unfold interH
  rw [min_comm a.y2 b.y2, max_comm a.y1 b.y1]

theorem interArea_comm (a b : Box) : interArea a b = interArea b a := by
  unfold interArea
  rw [interW_comm, interH_comm]

theorem iou_comm (a b : Box) : iou a b = iou b a := by
  unfold iou
  rw [interArea_comm a b]
  by_cases h : interArea b a = 0
  · rw [if_pos h, if_pos h]
  · rw [if_neg h, if_neg h]
    ring_nf

theorem isSep_symm (a b : Box) : isSep a b ↔ isSep b a := by
  unfold isSep
  tauto

theorem mergeCond_symm {a b : Box} (h : mergeCond a b) : mergeCond b a := by
  unfold mergeCond at h ⊢
  rcases h with h | h
  · left
    unfold iouGe at h ⊢
    rwa [iou_comm]
  · right
    intro hs
    exact h ((isSep_symm a b).mpr hs)

theorem union_wf (a b : Box) (ha : Wf a) (_hb : Wf b) : Wf (unionBox a b) := by
  unfold Wf at ha ⊢
  unfold unionBox
  simp only
  have h1 : min a.x1 b.x1 ≤ a.x1 := min_le_left _ _
  have h2 : a.x2 ≤ max a.x2 b.x2 := le_max_left _ _
  have h3 : min a.y1 b.y1 ≤ a.y1 := min_le_left _ _
  have h4 : a.y2 ≤ max a.y2 b.y2 := le_max_left _ _
  omega

theorem interW_pos (a b : Box) (h : 0 < interArea a b) : 0 < interW a b := by
  have h0 : (0 : Int) ≤ interW a b := le_max_left _ _
  rcases lt_or_eq_of_le h0 with h' | h'
  · exact h'
  · exfalso
    rw [interArea, ← h', zero_mul] at h
    exact lt_irrefl 0 h

theorem interH_pos (a b : Box) (h : 0 < interArea a b) : 0 < interH a b := by
  have h0 : (0 : Int) ≤ interH a b := le_max_left _ _
  rcases lt_or_eq_of_le h0 with h' | h'
  · exact h'
  · exfalso
    rw [interArea, ← h', mul_zero] at h
    exact lt_irrefl 0 h

theorem overlap_pos_not_sep (a b : Box) (h : 0 < interArea a b) :
    ¬ isSep a b := by
  have hw := interW_pos a b h
  have hh := interH_pos a b h
  have hx : max a.x1 b.x1 < min a.x2 b.x2 := by
    simp only [interW] at hw
    rcases le_or_lt (min a.x2 b.x2 - max a.x1 b.x1) 0 with hle | hlt
    · rw [max_eq_left hle] at hw
      exact absurd hw (lt_irrefl 0)
    · omega
  have hy : max a.y1 b.y1 < min a.y2 b.y2 := by
    simp only [interH] at hh
    rcases le_or_lt (min a.y2 b.y2 - max a.y1 b.y1) 0 with hle | hlt
    · rw [max_eq_left hle] at hh
      exact absurd hh (lt_irrefl 0)
    · omega
  intro hs
  unfold isSep MERGE_GAP at hs
  have e1 : a.x1 ≤ max a.x1 b.x1 := le_max_left _ _
  have e2 : b.x1 ≤ max a.x1 b.x1 := le_max_right _ _
  have e3 : min a.x2 b.x2 ≤ a.x2 := min_le_left _ _
  have e4 : min a.x2 b.x2 ≤ b.x2 := min_le_right _ _
  have e5 : a.y1 ≤ max a.y1 b.y1 := le_max_left _ _
  have e6 : b.y1 ≤ max a.y1 b.y1 := le_max_right _ _
  have e7 : min a.y2 b.y2 ≤ a.y2 := min_le_left _ _
  have e8 : min a.y2 b.y2 ≤ b.y2 := min_le_right _ _
  omega

theorem fracGe_mergeCond (inner outer : Box) (hwf : Wf inner)
    (h : fracGe inner outer) : mergeCond inner outer := by
  obtain ⟨hcc, _⟩ := (fracGe_iff inner outer).mp h
  obtain ⟨hwx, hwy⟩ := hwf
  obtain ⟨hc1, hc2, hc3, hc4⟩ := hcc
  have hw : interW inner outer = inner.x2 - inner.x1 := by
    unfold interW
    rw [min_eq_left hc3, max_eq_left hc1]
    rw [max_eq_right (by omega : (0 : Int) ≤ inner.x2 - inner.x1)]
  have hh : interH inner outer = inner.y2 - inner.y1 := by
    unfold interH
    rw [min_eq_left hc4, max_eq_left hc2]
    rw [max_eq_right (by omega : (0 : Int) ≤ inner.y2 - inner.y1)]
  have hpos : 0 < interArea inner outer := by
    rw [interArea, hw, hh]
    exact mul_pos (by omega) (by omega)
  exact Or.inr (overlap_pos_not_sep inner outer hpos)

theorem merge_boxes_wf (l : List Box) (hwf : ∀ x ∈ l, Wf x) :
    ∀ y ∈ merge_boxes l, Wf y :=
  merge_boxes_pres union_wf l hwf

theorem merge_boxes_pairwise (l : List Box) :
    (merge_boxes l).Pairwise (fun a b => ¬ mergeCond a b) := by
  rw [List.pairwise_iff_getElem]
  intro i j hi hj hij
  have h := merge_boxes_pairwise_fail l i j hij hj
  rwa [List.getD_eq_getElem _ _ hi, List.getD_eq_getElem _ _ hj] at h

theorem pairwise_fail_of_perm {l1 l2 : List Box} (hp : l1.Perm l2)
    (h : l1.Pairwise (fun a b => ¬ mergeCond a b)) :
    l2.Pairwise (fun a b => ¬ mergeCond a b) :=
  (hp.pairwise_iff (fun hab hc => hab (mergeCond_symm hc))).mp h

theorem containPass_eq_self (l : List Box)
    (h : ∀ i, i < l.length → ¬ dropAt l i) : containPass l = l := by
  unfold containPass
  have hfil : (List.range l.length).filter (fun i => decide (¬ dropAt l i)) =
      List.range l.length := by
    rw [List.filter_eq_self]
    intro i hi
    simp only [decide_eq_true_eq]
    exact h i (List.mem_range.mp hi)
  rw [hfil, List.range_eq_range', map_getD_drop l l.length 0 (by omega),
    List.drop_zero]

theorem pairwise_fail_getD (l : List Box)
    (h : l.Pairwise (fun a b => ¬ mergeCond a b)) :
    ∀ i j, i < l.length → j < l.length → i ≠ j →
      ¬ mergeCond (l.getD i default) (l.getD j default) := by
  intro i j hi hj hne
  have hpw := List.pairwise_iff_getElem.mp h
  rcases lt_or_gt_of_ne hne with hlt | hgt
  · rw [List.getD_eq_getElem _ _ hi, List.getD_eq_getElem _ _ hj]
    exact hpw i j hi hj hlt
  · rw [List.getD_eq_getElem _ _ hi, List.getD_eq_getElem _ _ hj]
    intro hc
    exact hpw j i hj hi hgt (mergeCond_symm hc)

/-- C3: on candidate sets of well-formed rectangles (positive width and
height, as the spec's Rectangle invariant requires), `merge_boxes` is
idempotent — applying it to its own output returns the same set of
rectangles (a permutation: the second run only re-sorts by area) — and
every pair of distinct rectangles of the merged set has IoU strictly below
the merge threshold 0.30, so no pair still qualifies for union. -/
theorem merge_boxes_idempotent (l : List Box) (hwf : ∀ x ∈ l, Wf x) :
    (merge_boxes (merge_boxes l)).Perm (merge_boxes l) ∧
    (∀ i j, i < j → j < (merge_boxes l).length →
      iou ((merge_boxes l).getD i default) ((merge_boxes l).getD j default) <
        IOU_TO_MERGE) := by
  constructor
  · have hpw : (sortArea (merge_boxes l)).Pairwise (fun a b => ¬ mergeCond a b) :=
      pairwise_fail_of_perm (sortArea_perm (merge_boxes l)).symm
        (merge_boxes_pairwise l)
    have hwfs : ∀ y ∈ sortArea (merge_boxes l), Wf y := by
      intro y hy
      exact merge_boxes_wf l hwf y ((sortArea_perm (merge_boxes l)).mem_iff.mp hy)
    have hidx := pairwise_fail_getD _ hpw
    have hnodrop : ∀ i, i < (sortArea (merge_boxes l)).length →
        ¬ dropAt (sortArea (merge_boxes l)) i := by
      intro i hi hdrop
      obtain ⟨j, hjr, hjne, hfr⟩ := hdrop
      have hjlt : j < (sortArea (merge_boxes l)).length := List.mem_range.mp hjr
      have hwi : Wf ((sortArea (merge_boxes l)).getD i default) :=
        hwfs _ (getD_mem_of_lt _ i hi)
      exact hidx i j hi hjlt (fun he => hjne he.symm)
        (fracGe_mergeCond _ _ hwi hfr)
    have hcp : containPass (sortArea (merge_boxes l)) = sortArea (merge_boxes l) :=
      containPass_eq_self _ hnodrop
    have hfix : onePass (sortArea (merge_boxes l)) = (sortArea (merge_boxes l), false) :=
      onePass_of_pairwise_fail _ (fun i j hij hj => hidx i j (by omega) hj (by omega))
    show mergeLoopFuel _ (containPass (sortArea (merge_boxes l))) |>.Perm _
    rw [hcp]
    have hloop : mergeLoopFuel ((sortArea (merge_boxes l)).length + 1)
        (sortArea (merge_boxes l)) = sortArea (merge_boxes l) := by
      simp only [mergeLoopFuel]
      rw [hfix]
      simp
    rw [hloop]
    exact sortArea_perm (merge_boxes l)
  · intro i j hij hj
    have h := merge_boxes_pairwise_fail l i j hij hj
    unfold mergeCond at h
    push_neg at h
    have h1 : ¬ iouGe ((merge_boxes l).getD i default)
        ((merge_boxes l).getD j default) := h.1
    unfold iouGe at h1
    exact lt_of_not_le h1

theorem merge_boxes_idempotent_witness :
    (merge_boxes (merge_boxes [⟨0, 0, 100, 100⟩, ⟨200, 200, 300, 300⟩])).Perm
      (merge_boxes [⟨0, 0, 100, 100⟩, ⟨200, 200, 300, 300⟩]) ∧
    iou ((merge_boxes [⟨0, 0, 100, 100⟩, ⟨200, 200, 300, 300⟩]).getD 0 default)
      ((merge_boxes [⟨0, 0, 100, 100⟩, ⟨200, 200, 300, 300⟩]).getD 1 default) <
      IOU_TO_MERGE :=
  ⟨(merge_boxes_idempotent [⟨0, 0, 100, 100⟩, ⟨200, 200, 300, 300⟩] (by decide)).1,
   (merge_boxes_idempotent [⟨0, 0, 100, 100⟩, ⟨200, 200, 300, 300⟩] (by decide)).2
     0 1 (by decide) (by decide)⟩

theorem boxSub_refl (a : Box) : boxSub a a := by
  unfold boxSub
  omega

theorem boxSub_trans {a b c : Box} (h1 : boxSub a b) (h2 : boxSub b c) :
    boxSub a c := by
  unfold boxSub at h1 h2 ⊢
  omega

theorem boxSub_antisymm {a b : Box} (h1 : boxSub a b) (h2 : boxSub b a) :
    a = b := by
  obtain ⟨a1, a2, a3, a4⟩ := a
  obtain ⟨b1, b2, b3, b4⟩ := b
  unfold boxSub at h1 h2
  simp only at h1 h2
  simp only [Box.mk.injEq]
  omega

theorem boxSub_union_left (a b : Box) : boxSub a (unionBox a b) := by
  unfold boxSub unionBox
  simp only
  have h1 : min a.x1 b.x1 ≤ a.x1 := min_le_left _ _
  have h2 : min a.y1 b.y1 ≤ a.y1 := min_le_left _ _
  have h3 : a.x2 ≤ max a.x2 b.x2 := le_max_left _ _
  have h4 : a.y2 ≤ max a.y2 b.y2 := le_max_left _ _
  omega

theorem boxSub_union_right (a b : Box) : boxSub b (unionBox a b) := by
  unfold boxSub unionBox
  simp only
  have h1 : min a.x1 b.x1 ≤ b.x1 := min_le_right _ _
  have h2 : min a.y1 b.y1 ≤ b.y1 := min_le_right _ _
  have h3 : b.x2 ≤ max a.x2 b.x2 := le_max_right _ _
  have h4 : b.y2 ≤ max a.y2 b.y2 := le_max_right _ _
  omega

theorem innerJ_acc_sub (l : List Box) (ri : Box) :
    ∀ (js : List Nat) (acc : Box) (used : List Bool) (ch : Bool),
      boxSub acc (innerJ l ri js acc used ch).1 := by
  intro js
  induction js with
  | nil => intro acc used ch; exact boxSub_refl acc
  | cons j js' ih =>
    intro acc used ch
    rw [innerJ]
    by_cases h1 : used.getD j false
    · rw [if_pos h1]
      exact ih _ _ _
    · rw [if_neg h1]
      by_cases h2 : stepCond ri acc (l.getD j default)
      · rw [if_pos h2]
        exact boxSub_trans (boxSub_union_left acc (l.getD j default)) (ih _ _ _)
      · rw [if_neg h2]
        exact ih _ _ _

theorem innerJ_covers_marks (l : List Box) (ri : Box) :
    ∀ (js : List Nat) (acc : Box) (used : List Bool) (ch : Bool) (m : Nat),
      ((innerJ l ri js acc used ch).2.1).getD m false = true →
      used.getD m false = true ∨
        boxSub (l.getD m default) (innerJ l ri js acc used ch).1 := by
  intro js
  induction js with
  | nil =>
    intro acc used ch m h
    exact Or.inl h
  | cons j js' ih =>
    intro acc used ch m h
    rw [innerJ] at h ⊢
    by_cases h1 : used.getD j false
    · rw [if_pos h1] at h ⊢
      exact ih _ _ _ m h
    · rw [if_neg h1] at h ⊢
      by_cases h2 : stepCond ri acc (l.getD j default)
      · rw [if_pos h2] at h ⊢
        rcases ih _ _ _ m h with hm | hsub
        · by_cases hjm : j = m
          · subst hjm
            refine Or.inr (boxSub_trans (boxSub_union_right acc (l.getD j default)) ?_)
            exact innerJ_acc_sub l ri js' _ _ _
          · rw [getD_set_ne_bool used j m hjm] at hm
            exact Or.inl hm
        · exact Or.inr hsub
      · rw [if_neg h2] at h ⊢
        exact ih _ _ _ m h

theorem outerI_out_mem (l : List Box) :
    ∀ (is' : List Nat) (used : List Bool) (ch : Bool) (out : List Box),
      ∀ y ∈ out, y ∈ (outerI l is' used ch out).1 := by
  intro is'
  induction is' with
  | nil =>
    intro used ch out y hy
    rw [outerI]
    exact List.mem_reverse.mpr hy
  | cons i is'' ih =>
    intro used ch out y hy
    rw [outerI]
    by_cases h1 : used.getD i false
    · rw [if_pos h1]
      exact ih _ _ _ y hy
    · rw [if_neg h1]
      simp only
      exact ih _ _ _ y (List.mem_cons_of_mem _ hy)

theorem outerI_covers (l : List Box) :
    ∀ (m k : Nat) (used : List Bool) (ch : Bool) (out : List Box),
      k + m = l.length →
      (∀ i ∈ List.range' k m, used.getD i false = true →
        ∃ y ∈ out, boxSub (l.getD i default) y) →
      ∀ i ∈ List.range' k m,
        ∃ y ∈ (outerI l (List.range' k m) used ch out).1,
          boxSub (l.getD i default) y := by
  intro m
  induction m with
  | zero =>
    intro k used ch out _ _ i hi
    rw [show List.range' k 0 = [] from rfl] at hi
    exact absurd hi (List.not_mem_nil i)
  | succ m ih =>
    intro k used ch out hk hcov i hi
    rw [List.range'_succ] at hi ⊢
    rw [outerI]
    by_cases h1 : used.getD k false
    · rw [if_pos h1]
      rcases List.mem_cons.mp hi with rfl | hmem
      · obtain ⟨y, hy, hsub⟩ := hcov i (by rw [List.range'_succ]; exact List.mem_cons_self _ _) h1
        exact ⟨y, outerI_out_mem l _ _ _ _ y hy, hsub⟩
      · refine ih (k + 1) used ch out (by omega) ?_ i hmem
        intro i' hi' hu'
        exact hcov i' (by rw [List.range'_succ]; exact List.mem_cons_of_mem _ hi') hu'
    · rw [if_neg h1]
      simp only
      have hm : l.length - (k + 1) = m := by omega
      rw [hm]
      have hcov' : ∀ i' ∈ List.range' (k + 1) m,
          ((innerJ l (l.getD k default) (List.range' (k + 1) m)
            (l.getD k default) used ch).2.1.set k true).getD i' false = true →
          ∃ y ∈ ((innerJ l (l.getD k default) (List.range' (k + 1) m)
            (l.getD k default) used ch).1 :: out),
            boxSub (l.getD i' default) y := by
        intro i' hi' hu'
        have hne : k ≠ i' := by
          have := List.mem_range'_1.mp hi'
          omega
        rw [getD_set_ne_bool _ k i' hne] at hu'
        rcases innerJ_covers_marks l (l.getD k default) (List.range' (k + 1) m)
            (l.getD k default) used ch i' hu' with hm' | hsub
        · obtain ⟨y, hy, hsub⟩ := hcov i'
            (by rw [List.range'_succ]; exact List.mem_cons_of_mem _ hi') hm'
          exact ⟨y, List.mem_cons_of_mem _ hy, hsub⟩
        · exact ⟨_, List.mem_cons_self _ _, hsub⟩
      rcases List.mem_cons.mp hi with rfl | hmem
      · refine ⟨(innerJ l (l.getD i default) (List.range' (i + 1) m)
          (l.getD i default) used ch).1, ?_, ?_⟩
        · exact outerI_out_mem l _ _ _ _ _ (List.mem_cons_self _ _)
        · exact innerJ_acc_sub l (l.getD i default) _ _ _ _
      · exact ih (k + 1) _ _ _ (by omega) hcov' i hmem

theorem onePass_covers (l : List Box) :
    ∀ x ∈ l, ∃ y ∈ (onePass l).1, boxSub x y := by
  intro x hx
  obtain ⟨i, hi, rfl⟩ := List.mem_iff_getElem.mp hx
  unfold onePass
  rw [List.range_eq_range']
  have h := outerI_covers l l.length 0 (List.replicate l.length false) false []
    (by omega) (by
      intro i' _ hu'
      rw [getD_replicate_false] at hu'
      exact Bool.noConfusion hu')
    i (List.mem_range'_1.mpr ⟨by omega, by omega⟩)
  rwa [List.getD_eq_getElem _ _ hi] at h

theorem mergeLoopFuel_covers :
    ∀ (fuel : Nat) (l : List Box), ∀ x ∈ l,
      ∃ y ∈ mergeLoopFuel fuel l, boxSub x y := by
  intro fuel
  induction fuel with
  | zero =>
    intro l x hx
    exact ⟨x, hx, boxSub_refl x⟩
  | succ f ih =>
    intro l x hx
    simp only [mergeLoopFuel]
    by_cases hp : (onePass l).2
    · rw [if_pos hp]
      obtain ⟨y, hy, hsub⟩ := onePass_covers l x hx
      obtain ⟨z, hz, hsub2⟩ := ih (onePass l).1 y hy
      exact ⟨z, hz, boxSub_trans hsub hsub2⟩
    · rw [if_neg hp]
      exact onePass_covers l x hx

theorem mem_containPass_of_keep (l : List Box) (i : Nat) (hi : i < l.length)
    (h : ¬ dropAt l i) : l.getD i default ∈ containPass l := by
  unfold containPass
  apply List.mem_map.mpr
  refine ⟨i, List.mem_filter.mpr ⟨List.mem_range.mpr hi, ?_⟩, rfl⟩
  simpa using h

theorem containPass_covers (l : List Box) (hnd : l.Nodup) :
    ∀ x ∈ l, ∃ t ∈ containPass l, boxSub x t := by
  suffices haux : ∀ (n : Nat) (x : Box), x ∈ l →
      l.countP (fun t => decide (boxSub x t ∧ x ≠ t)) ≤ n →
      ∃ t ∈ containPass l, boxSub x t by
    intro x hx
    exact haux (l.countP (fun t => decide (boxSub x t ∧ x ≠ t))) x hx (le_refl _)
  intro n
  induction n using Nat.strong_induction_on with
  | _ n ih =>
    intro x hx hmu
    obtain ⟨i, hilt, hieq⟩ := List.mem_iff_getElem.mp hx
    have hxd : l.getD i default = x := by
      rw [List.getD_eq_getElem _ _ hilt, hieq]
    by_cases hd : dropAt l i
    · obtain ⟨j, hjr, hjne, hfr⟩ := hd
      have hjlt : j < l.length := List.mem_range.mp hjr
      have hcc := ((fracGe_iff _ _).mp hfr).1
      have hsub : boxSub x (l.getD j default) := by
        rw [← hxd]
        exact hcc
      have htne : x ≠ l.getD j default := by
        rw [← hxd, List.getD_eq_getElem _ _ hilt, List.getD_eq_getElem _ _ hjlt]
        intro he
        exact hjne (((List.Nodup.getElem_inj_iff hnd).mp he).symm)
      have htmem : l.getD j default ∈ l := getD_mem_of_lt l j hjlt
      have hmono : ∀ u ∈ l,
          (fun u => decide (boxSub (l.getD j default) u ∧ l.getD j default ≠ u)) u = true →
          (fun u => decide (boxSub x u ∧ x ≠ u)) u = true := by
        intro u _ hdec
        simp only [decide_eq_true_eq] at hdec ⊢
        obtain ⟨hsu, hneu⟩ := hdec
        refine ⟨boxSub_trans hsub hsu, ?_⟩
        intro hxe
        exact htne (boxSub_antisymm hsub (hxe ▸ hsu))
      have hflip := countP_lt_of_flip
        (fun u => decide (boxSub (l.getD j default) u ∧ l.getD j default ≠ u))
        (fun u => decide (boxSub x u ∧ x ≠ u)) l hmono (l.getD j default) htmem
        (by simp only [decide_eq_true_eq]; exact ⟨hsub, htne⟩)
        (by simp)
      obtain ⟨t, htcp, hsubt⟩ := ih
        (l.countP (fun u => decide (boxSub (l.getD j default) u ∧ l.getD j default ≠ u)))
        (by omega) (l.getD j default) htmem (le_refl _)
      exact ⟨t, htcp, boxSub_trans hsub hsubt⟩
    · refine ⟨x, ?_, boxSub_refl x⟩
      rw [← hxd]
      exact mem_containPass_of_keep l i hilt hd

/-- C9 (counterexample): with duplicate rectangles, covered area IS lost:
two identical boxes eliminate each other in the containment pass (each is
fully contained in the other with ratio 1.0 >= 0.9), so `merge_boxes`
returns the empty list and the input rectangle is contained in no output
rectangle. -/
theorem merge_boxes_loses_duplicates_cex :
    merge_boxes [⟨0, 0, 200, 200⟩, ⟨0, 0, 200, 200⟩] = [] ∧
    ¬ ∃ y ∈ merge_boxes [⟨0, 0, 200, 200⟩, ⟨0, 0, 200, 200⟩],
        boxSub ⟨0, 0, 200, 200⟩ y := by decide

/-- C9 (amended): on duplicate-free inputs `merge_boxes` never loses
covered area: every input rectangle is geometrically contained in some
rectangle of the output — the containment pass only drops a rectangle
strictly inside a kept one (containment chains terminate), and the union
pass only replaces rectangles by their bounding-box unions. -/
theorem merge_boxes_covers (l : List Box) (hnd : l.Nodup) :
    ∀ x ∈ l, ∃ y ∈ merge_boxes l, boxSub x y := by
  intro x hx
  have hnd' : (sortArea l).Nodup := ((sortArea_perm l).nodup_iff).mpr hnd
  have hx' : x ∈ sortArea l := (sortArea_perm l).mem_iff.mpr hx
  obtain ⟨t, ht, hsub⟩ := containPass_covers (sortArea l) hnd' x hx'
  obtain ⟨y, hy, hsub2⟩ :=
    mergeLoopFuel_covers ((containPass (sortArea l)).length + 1)
      (containPass (sortArea l)) t ht
  exact ⟨y, hy, boxSub_trans hsub hsub2⟩

theorem merge_boxes_covers_witness :
    ∃ y ∈ merge_boxes [⟨0, 0, 100, 100⟩, ⟨50, 50, 150, 150⟩],
      boxSub ⟨0, 0, 100, 100⟩ y :=
  merge_boxes_covers [⟨0, 0, 100, 100⟩, ⟨50, 50, 150, 150⟩] (by decide)
    ⟨0, 0, 100, 100⟩ (by decide)

theorem wf_area_pos {r : Box} (h : Wf r) : 0 < boxArea r := by
  obtain ⟨h1, h2⟩ := h
  exact mul_pos (by omega) (by omega)

theorem area_mono_of_sub {s r : Box} (h : boxSub s r) (hws : Wf s) :
    boxArea s ≤ boxArea r := by
  obtain ⟨h1, h2, h3, h4⟩ := h
  obtain ⟨hw1, hw2⟩ := hws
  unfold boxArea
  exact mul_le_mul (by omega) (by omega) (by omega) (by omega)

theorem interW_mono_right (r : Box) {s u : Box} (h : boxSub s u) :
    interW r s ≤ interW r u := by
  obtain ⟨h1, h2, h3, h4⟩ := h
  unfold interW
  have e1 : min r.x2 s.x2 ≤ min r.x2 u.x2 := min_le_min (le_refl _) h3
  have e2 : max r.x1 u.x1 ≤ max r.x1 s.x1 := max_le_max (le_refl _) h1
  omega

theorem interH_mono_right (r : Box) {s u : Box} (h : boxSub s u) :
    interH r s ≤ interH r u := by
  obtain ⟨h1, h2, h3, h4⟩ := h
  unfold interH
  have e1 : min r.y2 s.y2 ≤ min r.y2 u.y2 := min_le_min (le_refl _) h4
  have e2 : max r.y1 u.y1 ≤ max r.y1 s.y1 := max_le_max (le_refl _) h2
  omega

theorem interArea_mono_right (r : Box) {s u : Box} (h : boxSub s u) :
    interArea r s ≤ interArea r u := by
  unfold interArea
  exact mul_le_mul (interW_mono_right r h) (interH_mono_right r h)
    (le_max_left 0 _) (le_trans (le_max_left 0 _) (interW_mono_right r h))

/-- C5 (counterexample): a rectangle `r` at least 90% of whose area
overlaps a distinct rectangle `s` CAN appear in the merged set — when `s`
is the smaller one: on `[(0,0,100,100), (0,0,95,100)]` the containment pass
drops `s` (area ratio 0.95 ≥ 0.9) and keeps `r`, so `r` is the output. -/
theorem contained_box_survives_cex :
    (⟨0, 0, 100, 100⟩ : Box) ≠ ⟨0, 0, 95, 100⟩ ∧
    9 * boxArea ⟨0, 0, 100, 100⟩ ≤
      10 * interArea ⟨0, 0, 100, 100⟩ ⟨0, 0, 95, 100⟩ ∧
    ⟨0, 0, 100, 100⟩ ∈ merge_boxes [⟨0, 0, 100, 100⟩, ⟨0, 0, 95, 100⟩] := by
  decide

/-- C5 (amended): for duplicate-free candidate sets of well-formed
rectangles, if at least 90% of `r`'s area overlaps a distinct rectangle
`s` of strictly larger area in the same set, then `r` itself does not
appear in the merged set produced by `merge_boxes`. -/
theorem contained_in_larger_not_in_merged (l : List Box) (r s : Box)
    (hnd : l.Nodup) (hwf : ∀ x ∈ l, Wf x)
    (hr : r ∈ l) (hs : s ∈ l) (_hrs : r ≠ s)
    (hoverlap : 9 * boxArea r ≤ 10 * interArea r s)
    (hlarger : boxArea r < boxArea s) :
    r ∉ merge_boxes l := by
  intro hrin
  have hnd' : (sortArea l).Nodup := ((sortArea_perm l).nodup_iff).mpr hnd
  have hs' : s ∈ sortArea l := (sortArea_perm l).mem_iff.mpr hs
  obtain ⟨sstar, hsscp, hssub⟩ := containPass_covers (sortArea l) hnd' s hs'
  obtain ⟨u, huout, husub⟩ :=
    mergeLoopFuel_covers ((containPass (sortArea l)).length + 1)
      (containPass (sortArea l)) sstar hsscp
  have huout' : u ∈ merge_boxes l := huout
  have hsu : boxSub s u := boxSub_trans hssub husub
  have hwr : Wf r := hwf r hr
  have hpos : 0 < interArea r u := by
    have h1 := interArea_mono_right r hsu
    have h2 := wf_area_pos hwr
    omega
  have hcond : mergeCond r u := Or.inr (overlap_pos_not_sep r u hpos)
  obtain ⟨a, halt, haeq⟩ := List.mem_iff_getElem.mp hrin
  obtain ⟨b, hblt, hbeq⟩ := List.mem_iff_getElem.mp huout'
  by_cases hab : a = b
  · have hru : r = u := by
      subst hab
      exact haeq.symm.trans hbeq
    have hsr : boxSub s r := hru ▸ hsu
    have hle : boxArea s ≤ boxArea r := area_mono_of_sub hsr (hwf s hs)
    omega
  · have hpf := pairwise_fail_getD (merge_boxes l) (merge_boxes_pairwise l)
      a b halt hblt hab
    rw [List.getD_eq_getElem _ _ halt, List.getD_eq_getElem _ _ hblt,
      haeq, hbeq] at hpf
    exact hpf hcond

theorem contained_in_larger_not_in_merged_witness :
    (⟨10, 10, 60, 60⟩ : Box) ∉ merge_boxes [⟨0, 0, 200, 200⟩, ⟨10, 10, 60, 60⟩] :=
  contained_in_larger_not_in_merged [⟨0, 0, 200, 200⟩, ⟨10, 10, 60, 60⟩]
    ⟨10, 10, 60, 60⟩ ⟨0, 0, 200, 200⟩ (by decide) (by decide) (by decide)
    (by decide) (by decide) (by decide) (by decide)
